import Mathlib

/-!
Verification development for a Go cache-aside engine built on a redis client
and a per-process request coalescer.  The engine exposes a single operation
`GetOrSet(ctx, key, loader, hook?)`; data-access helpers construct cache keys
and delegate to it.  We embed the engine shallowly: the backend's responses
(the raw redis read result, the loader outcome, the raw write result, the
optional hook) form an environment record, and the inner coalesced function
becomes a pure Lean function from that environment to a trace recording the
returned value, whether the loader ran, the write attempt, the hook call and
the logged messages.  Request coalescing is modelled separately as a step
relation over an explicit in-flight-computation state.
-/

namespace CacheAside

/-- Errors are modelled by their message strings, as Go errors carry here. -/
abbrev Err := String

/-- The dynamically typed value (`any`) returned by the coalesced inner
function in Go: either a byte payload or some other runtime type, carried by
its printed type name (as `%T` would render it). -/
inductive GoAny (β : Type) where
  | bytes (b : β)
  | other (typeName : String)
deriving DecidableEq, Repr

/-- The raw response of the redis backend to a `GET`: the sentinel
`redis.Nil` for an absent key, some other backend failure, or the stored
payload. -/
inductive RawGetRes (β : Type) where
  | redisNil
  | err (e : Err)
  | ok (b : β)
deriving DecidableEq, Repr

/-- `RedisClient.Get`: translates the raw backend response into
`(bytes, exist, error)`.  `redis.Nil` is not an error: it yields
`(nil, false, nil)`.  Any other failure is wrapped with the operation prefix
and yields `(nil, false, err)`.  A found key yields `(bytes, true, nil)`.
The Go nil byte slice is modelled by the default value of `β`. -/
def RedisClient.Get {β : Type} [Inhabited β] : RawGetRes β → β × Bool × Option Err
  | .redisNil => (default, false, none)
  | .err e => (default, false, some ("failed to get from redis: " ++ e))
  | .ok b => (b, true, none)

/-- `RedisClient.Set`: wraps a raw backend write failure with the
operation-identifying prefix; a successful write returns no error. -/
def RedisClient.Set (raw : Option Err) : Option Err :=
  match raw with
  | some e => some ("failed to set to redis: " ++ e)
  | none => none

/-- The environment of one leader pass of `GetOrSet`: what the backend
answers to the read, what the loader returns, what the backend answers to
the write, and the optional side-effect hook (`extraSetFunc`), a function
from the serialized bytes to an optional error. -/
structure Env (β T : Type) where
  rawGet : RawGetRes β
  callback : Except Err T
  rawSet : Option Err
  hook : Option (β → Option Err)

/-- The observable trace of one execution of the coalesced inner function:
its returned `(any, error)` pair, whether the loader (`callback`) was
invoked, the write attempt (key, bytes, ttl) if one was issued, whether that
write succeeded, the bytes the hook was called with (if it was called), and
the messages logged along the way. -/
structure InnerTrace (β : Type) where
  result : Except Err (GoAny β)
  callbackInvoked : Bool
  setCall : Option (String × β × Nat)
  setOk : Bool
  hookCall : Option β
  logged : List Err

/-- The inner function that `GetOrSet` hands to the coalescer
(`sfg.Do(cacheKey, fn)`), translated line by line from the Go source:
read the cache, log a read error, return the bytes on a hit; otherwise run
the callback, marshal its result, write the cache (logging a write failure),
run the hook if supplied (logging its failure), and return the bytes. -/
def sfgBody {β T : Type} [Inhabited β] (expiration : Nat) (cacheKey : String)
    (marshal : T → Except Err β) (env : Env β T) : InnerTrace β :=
  let g := RedisClient.Get env.rawGet
  let logged0 : List Err := match g.2.2 with | some e => [e] | none => []
  if g.2.1 then
    { result := .ok (.bytes g.1), callbackInvoked := false, setCall := none,
      setOk := false, hookCall := none, logged := logged0 }
  else
    match env.callback with
    | .error e =>
      { result := .error e, callbackInvoked := true, setCall := none,
        setOk := false, hookCall := none, logged := logged0 }
    | .ok t =>
      match marshal t with
      | .error e =>
        { result := .error e, callbackInvoked := true, setCall := none,
          setOk := false, hookCall := none, logged := logged0 }
      | .ok bytes =>
        let serr := RedisClient.Set env.rawSet
        let logged1 := logged0 ++ (match serr with | some e => [e] | none => [])
        match env.hook with
        | none =>
          { result := .ok (.bytes bytes), callbackInvoked := true,
            setCall := some (cacheKey, bytes, expiration), setOk := serr.isNone,
            hookCall := none, logged := logged1 }
        | some f =>
          { result := .ok (.bytes bytes), callbackInvoked := true,
            setCall := some (cacheKey, bytes, expiration), setOk := serr.isNone,
            hookCall := some bytes,
            logged := logged1 ++ (match f bytes with | some e => [e] | none => []) }

/-- The tail of `GetOrSet` after the coalescer returns: propagate an error,
type-assert the `any` result to bytes (an assertion failure is surfaced as
an error mentioning the offending runtime type, not a panic), and
unmarshal the bytes into the caller's value. -/
def decodeSfgResult {β T : Type} (unmarshal : β → Except Err T) :
    Except Err (GoAny β) → Except Err T
  | .error e => .error e
  | .ok (.bytes b) => unmarshal b
  | .ok (.other tn) => .error ("failed to get from cache: invalid type " ++ tn)

/-- `Cache.GetOrSet` for one leader pass: run the inner function, then decode
its result for the caller.  The pair also exposes the inner trace so that
theorems can speak about loader invocations, write attempts and hook calls. -/
def GetOrSet {β T : Type} [Inhabited β] (expiration : Nat) (cacheKey : String)
    (marshal : T → Except Err β) (unmarshal : β → Except Err T)
    (env : Env β T) : Except Err T × InnerTrace β :=
  let tr := sfgBody expiration cacheKey marshal env
  (decodeSfgResult unmarshal tr.result, tr)

/-- Cache key of `RedisRepository.GetByColumn` (identical in both source
variants): `tableName:columnName:columnValue`. -/
def getByColumnKey (tableName columnName columnValue : String) : String :=
  tableName ++ ":" ++ columnName ++ ":" ++ columnValue

/-- Cache key of `RedisRepository.GetCountByColumn`:
`tableName:count:columnName:columnValue`. -/
def getCountByColumnKey (tableName columnName columnValue : String) : String :=
  tableName ++ ":count:" ++ columnName ++ ":" ++ columnValue

/-- Cache key of `RedisRepository.Select` (whole-collection query):
`tableName:all`. -/
def selectKey (tableName : String) : String :=
  tableName ++ ":all"

/-- Cache key of `RedisRepository.SelectByColumn`:
`tableName:columnName:columnValue`. -/
def selectByColumnKey (tableName columnName columnValue : String) : String :=
  tableName ++ ":" ++ columnName ++ ":" ++ columnValue

/-- Cache key of `RedisRepository.SelectByColumnWithLimit`: the source
formats only the table name and the limit (`"%s:limit:%v"`); the
`columnName` and `columnValue` parameters of the method do not appear in
the key. -/
def selectByColumnWithLimitKey (tableName columnName columnValue : String)
    (limit : Int) : String :=
  tableName ++ ":limit:" ++ toString limit

/-- A JSON document, the schema-free encoding `encoding/json` produces.
`json.Marshal` maps a Go value to such a document by reflection and renders
it to bytes; `json.Unmarshal` parses the bytes back into a document and
decodes it into the caller's value.  Both the rendering to bytes and the
parse back are implemented below, so round-tripping is settled at the byte
level. -/
inductive Json where
  | null
  | bool (b : Bool)
  | num (n : Int)
  | str (s : String)
  | arr (elems : List Json)
  | obj (fields : List (String × Json))

/-- The `Count` row type declared in the repository (its one concrete value
type): a single exported integer field `Count`. -/
structure Count where
  count : Int
deriving DecidableEq, Repr

/-- `json.Marshal` on a `Count` value: an object with the exported field
name `Count` (the struct carries only a `db` tag, no `json` tag, so the Go
field name is used). -/
def Count.marshalJson (c : Count) : Json :=
  Json.obj [("Count", Json.num c.count)]

/-- `json.Unmarshal` of a JSON document into a `Count` value: accepts an
object whose `Count` field is a number, rejects anything else. -/
def Count.unmarshalJson : Json → Except Err Count
  | .obj [("Count", .num n)] => .ok ⟨n⟩
  | _ => .error "json: cannot unmarshal value into Count"

/-- The double-quote character. -/
def quoteChar : Char := Char.ofNat 34

/-- The backslash character. -/
def backslashChar : Char := Char.ofNat 92

/-- The newline character. -/
def newlineChar : Char := Char.ofNat 10

/-- The carriage-return character. -/
def carriageChar : Char := Char.ofNat 13

/-- The horizontal-tab character. -/
def tabChar : Char := Char.ofNat 9

/-- The opening-brace character. -/
def lbraceChar : Char := Char.ofNat 123

/-- The closing-brace character. -/
def rbraceChar : Char := Char.ofNat 125

/-- Whether a character is a decimal digit. -/
def isDigitChar (c : Char) : Bool :=
  decide (48 ≤ c.toNat) && decide (c.toNat ≤ 57)

/-- The character for a decimal digit value. -/
def digitChar (n : Nat) : Char := Char.ofNat (48 + n)

/-- The lowercase hexadecimal character for a digit value below sixteen. -/
def hexChar (n : Nat) : Char :=
  if n < 10 then Char.ofNat (48 + n) else Char.ofNat (87 + n)

/-- The value of a lowercase hexadecimal character, if it is one. -/
def parseHexDigit (c : Char) : Option Nat :=
  if 48 ≤ c.toNat ∧ c.toNat ≤ 57 then some (c.toNat - 48)
  else if 97 ≤ c.toNat ∧ c.toNat ≤ 102 then some (c.toNat - 87)
  else none

/-- The JSON escape of one character inside a string literal, as the Go
encoder emits it: quote and backslash are backslash-escaped, newline,
carriage return and tab take their short forms, the remaining control
characters take the four-digit unicode form, and every other character is
emitted verbatim. -/
def escapeChar (c : Char) : List Char :=
  if c = quoteChar then [backslashChar, quoteChar]
  else if c = backslashChar then [backslashChar, backslashChar]
  else if c = newlineChar then [backslashChar, 'n']
  else if c = carriageChar then [backslashChar, 'r']
  else if c = tabChar then [backslashChar, 't']
  else if c.toNat < 32 then
    [backslashChar, 'u', '0', '0', hexChar (c.toNat / 16),
      hexChar (c.toNat % 16)]
  else [c]

/-- The escaped rendering of a string body. -/
def escapeList : List Char → List Char
  | [] => []
  | c :: cs => escapeChar c ++ escapeList cs

/-- The decimal digits of a natural number, most significant first. -/
def toDigitsCore (n : Nat) : List Char :=
  if n < 10 then [digitChar n]
  else toDigitsCore (n / 10) ++ [digitChar (n % 10)]
termination_by n
decreasing_by exact Nat.div_lt_self (by omega) (by omega)

/-- The decimal rendering of an integer. -/
def renderInt (n : Int) : List Char :=
  if n < 0 then '-' :: toDigitsCore n.natAbs else toDigitsCore n.toNat

/-- Consume a maximal run of decimal digits, accumulating their value. -/
def parseNatAux (acc : Nat) : List Char → Nat × List Char
  | [] => (acc, [])
  | c :: cs =>
    if isDigitChar c then parseNatAux (acc * 10 + (c.toNat - 48)) cs
    else (acc, c :: cs)

/-- Prepend a character to the string being parsed, if parsing goes on to
succeed. -/
def consStr (c : Char) :
    Option (List Char × List Char) → Option (List Char × List Char)
  | some (s, r) => some (c :: s, r)
  | none => none

/-- Parse the body of a JSON string literal up to its closing quote,
undoing the escapes `escapeChar` produces. -/
def parseStringBody : List Char → Option (List Char × List Char)
  | [] => none
  | c :: cs =>
    if c = quoteChar then some ([], cs)
    else if c = backslashChar then
      match cs with
      | [] => none
      | e :: cs2 =>
        if e = quoteChar then consStr quoteChar (parseStringBody cs2)
        else if e = backslashChar then consStr backslashChar (parseStringBody cs2)
        else if e = 'n' then consStr newlineChar (parseStringBody cs2)
        else if e = 'r' then consStr carriageChar (parseStringBody cs2)
        else if e = 't' then consStr tabChar (parseStringBody cs2)
        else if e = 'u' then
          match cs2 with
          | z1 :: z2 :: h1 :: h2 :: cs3 =>
            if z1 = '0' then
              if z2 = '0' then
                match parseHexDigit h1, parseHexDigit h2 with
                | some a, some b =>
                  consStr (Char.ofNat (16 * a + b)) (parseStringBody cs3)
                | _, _ => none
              else none
            else none
          | _ => none
        else none
    else consStr c (parseStringBody cs)

/-- The bytes of the keyword `null`. -/
def nullChars : List Char := ['n', 'u', 'l', 'l']

/-- The bytes of the keyword `true`. -/
def trueChars : List Char := ['t', 'r', 'u', 'e']

/-- The bytes of the keyword `false`. -/
def falseChars : List Char := ['f', 'a', 'l', 's', 'e']

mutual

/-- The rendering of a JSON document to bytes, exactly as the Go encoder
emits it for the engine's payloads: no whitespace, object fields in
declaration order, strings escaped by `escapeChar`. -/
def renderValue : Json → List Char
  | .null => nullChars
  | .bool b => if b then trueChars else falseChars
  | .num n => renderInt n
  | .str s => quoteChar :: (escapeList s.data ++ [quoteChar])
  | .arr [] => ['[', ']']
  | .arr (e :: es) => '[' :: (renderValue e ++ renderElems es ++ [']'])
  | .obj [] => [lbraceChar, rbraceChar]
  | .obj ((k, v) :: fs) =>
    lbraceChar :: (renderField k v ++ renderFields fs ++ [rbraceChar])

/-- The rendering of the remaining array elements, each preceded by a
comma. -/
def renderElems : List Json → List Char
  | [] => []
  | e :: es => ',' :: (renderValue e ++ renderElems es)

/-- The rendering of one object field: quoted key, colon, value. -/
def renderField (k : String) (v : Json) : List Char :=
  quoteChar :: (escapeList k.data ++ (quoteChar :: (':' :: renderValue v)))

/-- The rendering of the remaining object fields, each preceded by a
comma. -/
def renderFields : List (String × Json) → List Char
  | [] => []
  | (k, v) :: fs => ',' :: (renderField k v ++ renderFields fs)

end

mutual

/-- A structural size of a JSON document, used to budget the parser's
fuel: every node counts one, independent of the magnitude of numbers. -/
def jsize : Json → Nat
  | .arr es => 1 + jsizeElems es
  | .obj fs => 1 + jsizeFields fs
  | _ => 1

/-- The structural size of a list of array elements. -/
def jsizeElems : List Json → Nat
  | [] => 1
  | e :: es => 1 + jsize e + jsizeElems es

/-- The structural size of a list of object fields. -/
def jsizeFields : List (String × Json) → Nat
  | [] => 1
  | (k2, v2) :: fs => 1 + jsize v2 + jsizeFields fs

end

mutual

/-- A recursive-descent parser for the byte rendering of JSON documents,
fuelled to make termination structural: `parseValue` dispatches on the
first byte, `parseElems` parses the elements of a non-empty array and
`parseFields` the fields of a non-empty object. -/
def parseValue : Nat → List Char → Option (Json × List Char)
  | 0, _ => none
  | fuel + 1, cs =>
    match cs with
    | [] => none
    | c :: cs1 =>
      if c = 'n' then
        match cs1 with
        | 'u' :: 'l' :: 'l' :: r => some (.null, r)
        | _ => none
      else if c = 't' then
        match cs1 with
        | 'r' :: 'u' :: 'e' :: r => some (.bool true, r)
        | _ => none
      else if c = 'f' then
        match cs1 with
        | 'a' :: 'l' :: 's' :: 'e' :: r => some (.bool false, r)
        | _ => none
      else if c = quoteChar then
        match parseStringBody cs1 with
        | some (s, r) => some (.str (String.mk s), r)
        | none => none
      else if c = '-' then
        match cs1 with
        | [] => none
        | d :: _ =>
          if isDigitChar d then
            let p := parseNatAux 0 cs1
            some (.num (-(p.1 : Int)), p.2)
          else none
      else if isDigitChar c then
        let p := parseNatAux 0 (c :: cs1)
        some (.num ((p.1 : Int)), p.2)
      else if c = '[' then
        match cs1 with
        | [] => none
        | d :: r =>
          if d = ']' then some (.arr [], r)
          else
            match parseElems fuel cs1 with
            | some (es, r2) => some (.arr es, r2)
            | none => none
      else if c = lbraceChar then
        match cs1 with
        | [] => none
        | d :: r =>
          if d = rbraceChar then some (.obj [], r)
          else
            match parseFields fuel cs1 with
            | some (fs, r2) => some (.obj fs, r2)
            | none => none
      else none

/-- Parse one or more comma-separated array elements followed by the
closing bracket. -/
def parseElems : Nat → List Char → Option (List Json × List Char)
  | 0, _ => none
  | fuel + 1, cs =>
    match parseValue fuel cs with
    | some (v, r) =>
      match r with
      | [] => none
      | d :: r2 =>
        if d = ',' then
          match parseElems fuel r2 with
          | some (vs, r3) => some (v :: vs, r3)
          | none => none
        else if d = ']' then some ([v], r2)
        else none
    | none => none

/-- Parse one or more comma-separated object fields followed by the
closing brace. -/
def parseFields : Nat → List Char → Option (List (String × Json) × List Char)
  | 0, _ => none
  | fuel + 1, cs =>
    match cs with
    | [] => none
    | c :: cs1 =>
      if c = quoteChar then
        match parseStringBody cs1 with
        | some (k, r) =>
          match r with
          | [] => none
          | d :: r2 =>
            if d = ':' then
              match parseValue fuel r2 with
              | some (v, r3) =>
                match r3 with
                | [] => none
                | d2 :: r4 =>
                  if d2 = ',' then
                    match parseFields fuel r4 with
                    | some (fs, r5) => some ((String.mk k, v) :: fs, r5)
                    | none => none
                  else if d2 = rbraceChar then some ([(String.mk k, v)], r4)
                  else none
              | none => none
            else none
        | none => none
      else none

end

/-- The first byte of the remaining input is not a decimal digit (or the
input is exhausted); rendered JSON always satisfies this after a value, so
number parsing never overruns. -/
def headNotDigit : List Char → Prop
  | [] => True
  | c :: _ => isDigitChar c = false

/-- `json.Marshal` for a value type with document encoding `enc`: encode to
the document, then render it to bytes. -/
def serialize {T : Type} (enc : T → Json) (v : T) : List Char :=
  renderValue (enc v)

/-- `json.Unmarshal` for a value type with document decoding `dec`: parse
the bytes into a document — the fuel is ample for any document the bytes
can denote — then decode it; leftover bytes or a parse failure is an
error. -/
def deserialize {T : Type} (dec : Json → Except Err T) (bs : List Char) :
    Except Err T :=
  match parseValue (2 * bs.length + 2) bs with
  | some (j, []) => dec j
  | _ => Except.error "invalid json"

/-- One second of Go `time.Duration`, in nanoseconds. -/
def timeSecond : Nat := 1000000000

/-- The cache engine owns its client (elided here) and a fixed expiration;
`T` is the value type, `β` the byte-payload type. -/
structure Cache (β T : Type) where
  expiration : Nat

/-- `NewCache`: stores the supplied expiration in the engine. -/
def NewCache (β T : Type) (expiration : Nat) : Cache β T :=
  { expiration := expiration }

/-- The cache engine constructed by `NewRedisRepository` in
`src/golang/redis.go`: built with `time.Second*10`. -/
def NewRedisRepository_cache (β T : Type) : Cache β T :=
  NewCache β T (timeSecond * 10)

/-- The cache engine constructed by `NewRedisRepository` in
`src/golang/redis/util.go`: also built with `time.Second*10`. -/
def redisUtil_NewRedisRepository_cache (β T : Type) : Cache β T :=
  NewCache β T (timeSecond * 10)

/-- An event of the coalescing model: a caller arrives presenting a key
(becoming the leader if no computation is in flight for that key, otherwise
attaching to the in-flight one), or the in-flight computation for a key
completes, its leader pass having run under environment `env`, and its
outcome is delivered to every attached caller. -/
inductive SFEvent (β T : Type) where
  | arrive (caller : Nat) (key : String)
  | complete (key : String) (env : Env β T)

/-- Decidable equality for `Except`, used to evaluate concrete deliveries
of the coalescing model. -/
instance {ε α : Type} [DecidableEq ε] [DecidableEq α] : DecidableEq (Except ε α) := fun a b =>
  match a, b with
  | .error e1, .error e2 =>
    if h : e1 = e2 then isTrue (by rw [h])
    else isFalse (fun hh => h (Except.error.inj hh))
  | .ok v1, .ok v2 =>
    if h : v1 = v2 then isTrue (by rw [h])
    else isFalse (fun hh => h (Except.ok.inj hh))
  | .error _, .ok _ => isFalse (fun hh => Except.noConfusion hh)
  | .ok _, .error _ => isFalse (fun hh => Except.noConfusion hh)

/-- One delivered outcome: which caller received it, the identifier of the
in-flight computation (flight) it was attached to, and the outcome. -/
structure Delivery (β : Type) where
  caller : Nat
  flight : Nat
  outcome : Except Err (GoAny β)
deriving DecidableEq, Repr

/-- The coalescer state: a fresh-flight counter, the in-flight computations
as an association list `(key, flightId, attached callers)`, the log of
leader executions of the inner function `(key, flightId)`, and the
deliveries made so far. -/
structure SFState (β : Type) where
  counter : Nat
  inflight : List (String × Nat × List Nat)
  execLog : List (String × Nat)
  delivered : List (Delivery β)

/-- The empty coalescer state. -/
def SFState.init (β : Type) : SFState β :=
  { counter := 0, inflight := [], execLog := [], delivered := [] }

/-- Attach a caller to the in-flight computation for `k`, leaving every
other computation untouched. -/
def attachWaiter (c : Nat) (k : String)
    (l : List (String × Nat × List Nat)) : List (String × Nat × List Nat) :=
  l.map (fun p => if p.1 = k then (p.1, p.2.1, c :: p.2.2) else p)

/-- Look up the in-flight computation for `k`, returning its flight id and
attached callers. -/
def lookupFlight (k : String) (l : List (String × Nat × List Nat)) :
    Option (Nat × List Nat) :=
  match l.find? (fun p => p.1 = k) with
  | some p => some p.2
  | none => none

/-- The flight ids of a list of in-flight computations. -/
def flightIds (l : List (String × Nat × List Nat)) : List Nat :=
  l.map (fun p => p.2.1)

/-- One step of the coalescing model.  An arriving caller joins the
in-flight computation for its key if one exists — adding nothing to the
execution log — and otherwise opens a fresh flight and becomes its leader,
which is the only point where an execution of the inner function is logged.
A completion delivers the leader pass's result (as computed by `sfgBody`
under the completion's environment) to every attached caller and retires
the flight. -/
def sfStep {β T : Type} [Inhabited β] (expiration : Nat)
    (marshal : T → Except Err β) (s : SFState β) : SFEvent β T → SFState β
  | .arrive c k =>
    match lookupFlight k s.inflight with
    | some _ => { s with inflight := attachWaiter c k s.inflight }
    | none =>
      { s with
          counter := s.counter + 1,
          inflight := (k, s.counter, [c]) :: s.inflight,
          execLog := (k, s.counter) :: s.execLog }
  | .complete k env =>
    match lookupFlight k s.inflight with
    | some (fid, ws) =>
      { s with
          inflight := s.inflight.filter (fun p => p.1 ≠ k),
          delivered :=
            ws.map (fun c =>
              { caller := c, flight := fid,
                outcome := (sfgBody expiration k marshal env).result }) ++
              s.delivered }
    | none => s

/-- Run the coalescing model from the empty state over an event trace. -/
def sfRun {β T : Type} [Inhabited β] (expiration : Nat)
    (marshal : T → Except Err β) (es : List (SFEvent β T)) : SFState β :=
  es.foldl (sfStep expiration marshal) (SFState.init β)

/-- The invariant of the coalescing state: flight ids are allocated below
the counter, in-flight ids are distinct, logged executions carry distinct
flight ids below the counter, delivered flights are below the counter and
never refer to a still-open flight, and deliveries for one flight all carry
the same outcome. -/
structure SFInv {β : Type} (s : SFState β) : Prop where
  inflight_lt : ∀ p ∈ s.inflight, p.2.1 < s.counter
  inflight_nodup : (flightIds s.inflight).Nodup
  exec_lt : ∀ p ∈ s.execLog, p.2 < s.counter
  exec_nodup : (s.execLog.map Prod.snd).Nodup
  delivered_lt : ∀ d ∈ s.delivered, d.flight < s.counter
  delivered_fresh : ∀ p ∈ s.inflight, ∀ d ∈ s.delivered, d.flight ≠ p.2.1
  delivered_consistent : ∀ d1 ∈ s.delivered, ∀ d2 ∈ s.delivered,
    d1.flight = d2.flight → d1.outcome = d2.outcome

/-- Claim C2 — hit path.  When the cache read finds the key (the backend
returns stored bytes with no error), `GetOrSet` returns exactly the
deserialization of those bytes — so a deserialization failure is returned as
that error — and the loader is never invoked. -/
theorem getOrSet_hit_path {β T : Type} [Inhabited β] (expiration : Nat)
    (cacheKey : String) (marshal : T → Except Err β)
    (unmarshal : β → Except Err T) (env : Env β T) (b : β)
    (h : env.rawGet = RawGetRes.ok b) :
    (GetOrSet expiration cacheKey marshal unmarshal env).1 = unmarshal b ∧
    (GetOrSet expiration cacheKey marshal unmarshal env).2.callbackInvoked = false := by
  simp [GetOrSet, sfgBody, RedisClient.Get, h, decodeSfgResult]

/-- Witness for C2: a concrete hit with stored bytes `[7]` returns their
deserialization (the value `7`) without invoking the loader. -/
theorem getOrSet_hit_path_witness :
    (GetOrSet 10 "k" (fun n : Nat => Except.ok [n])
        (fun b : List Nat => match b with
          | [n] => Except.ok n
          | _ => Except.error "bad")
        ⟨RawGetRes.ok [7], Except.ok 99, none, none⟩).1 = Except.ok 7 ∧
    (GetOrSet 10 "k" (fun n : Nat => Except.ok [n])
        (fun b : List Nat => match b with
          | [n] => Except.ok n
          | _ => Except.error "bad")
        ⟨RawGetRes.ok [7], Except.ok 99, none, none⟩).2.callbackInvoked = false := by
  have h := getOrSet_hit_path 10 "k" (fun n : Nat => Except.ok [n])
    (fun b : List Nat => match b with
      | [n] => Except.ok n
      | _ => Except.error "bad")
    ⟨RawGetRes.ok [7], Except.ok 99, none, none⟩ [7] rfl
  exact ⟨h.1, h.2⟩

/-- Claim C3 — miss-path error handling.  On a miss (the backend reports the
key absent, or a read failure that is treated as a miss), if the loader
returns an error, or the loader succeeds but serialization fails, `GetOrSet`
returns that error and issues no cache write. -/
theorem getOrSet_miss_errors {β T : Type} [Inhabited β] (expiration : Nat)
    (cacheKey : String) (marshal : T → Except Err β)
    (unmarshal : β → Except Err T) (env : Env β T)
    (hmiss : env.rawGet = RawGetRes.redisNil ∨ ∃ e0, env.rawGet = RawGetRes.err e0) :
    (∀ e, env.callback = Except.error e →
      (GetOrSet expiration cacheKey marshal unmarshal env).1 = Except.error e ∧
      (GetOrSet expiration cacheKey marshal unmarshal env).2.setCall = none) ∧
    (∀ t e, env.callback = Except.ok t → marshal t = Except.error e →
      (GetOrSet expiration cacheKey marshal unmarshal env).1 = Except.error e ∧
      (GetOrSet expiration cacheKey marshal unmarshal env).2.setCall = none) := by
  rcases hmiss with h | ⟨e0, h⟩ <;>
    refine ⟨fun e hc => ?_, fun t e hc hm => ?_⟩ <;>
    simp [GetOrSet, sfgBody, RedisClient.Get, h, hc, decodeSfgResult] <;>
    simp [hm, decodeSfgResult]

/-- Witness for C3: a concrete miss whose loader fails with "db down" makes
`GetOrSet` return that error and write nothing. -/
theorem getOrSet_miss_errors_witness :
    (GetOrSet 10 "k" (fun n : Nat => Except.ok [n]) (fun _ : List Nat => Except.ok 0)
        ⟨RawGetRes.redisNil, Except.error "db down", none, none⟩).1 =
      Except.error "db down" ∧
    (GetOrSet 10 "k" (fun n : Nat => Except.ok [n]) (fun _ : List Nat => Except.ok 0)
        ⟨RawGetRes.redisNil, Except.error "db down", none, none⟩).2.setCall = none := by
  exact (getOrSet_miss_errors 10 "k" (fun n : Nat => Except.ok [n])
    (fun _ : List Nat => Except.ok 0)
    ⟨RawGetRes.redisNil, Except.error "db down", none, none⟩
    (Or.inl rfl)).1 "db down" rfl

/-- Claim C4 — read-failure resilience.  When the backend read fails (an
error other than key-absent), the wrapped error is logged, the read is
treated as a miss so the loader is still invoked, and when the loader,
serialization and deserialization succeed the loader's result is returned. -/
theorem getOrSet_read_failure_resilient {β T : Type} [Inhabited β]
    (expiration : Nat) (cacheKey : String) (marshal : T → Except Err β)
    (unmarshal : β → Except Err T) (env : Env β T) (e0 : Err)
    (h : env.rawGet = RawGetRes.err e0) :
    ("failed to get from redis: " ++ e0) ∈
      (GetOrSet expiration cacheKey marshal unmarshal env).2.logged ∧
    (GetOrSet expiration cacheKey marshal unmarshal env).2.callbackInvoked = true ∧
    (∀ t b, env.callback = Except.ok t → marshal t = Except.ok b →
      unmarshal b = Except.ok t →
      (GetOrSet expiration cacheKey marshal unmarshal env).1 = Except.ok t) := by
  refine ⟨?_, ?_, fun t b hc hm hu => ?_⟩
  · simp only [GetOrSet, sfgBody, RedisClient.Get, h]
    cases env.callback with
    | error e => simp
    | ok t =>
      cases hmr : marshal t with
      | error e => simp [hmr]
      | ok b =>
        cases env.hook with
        | none => simp [hmr]
        | some f => simp [hmr]
  · simp only [GetOrSet, sfgBody, RedisClient.Get, h]
    cases env.callback with
    | error e => simp
    | ok t =>
      cases hmr : marshal t with
      | error e => simp [hmr]
      | ok b =>
        cases env.hook with
        | none => simp [hmr]
        | some f => simp [hmr]
  · simp only [GetOrSet, sfgBody, RedisClient.Get, h, hc]
    cases env.hook with
    | none => simp [hm, decodeSfgResult, hu]
    | some f => simp [hm, decodeSfgResult, hu]

/-- Witness for C4: a concrete read failure still yields the loader's value
`7`, with the wrapped read error logged. -/
theorem getOrSet_read_failure_resilient_witness :
    ("failed to get from redis: " ++ "conn refused") ∈
      (GetOrSet 10 "k" (fun n : Nat => Except.ok [n])
        (fun b : List Nat => match b with
          | [n] => Except.ok n
          | _ => Except.error "bad")
        ⟨RawGetRes.err "conn refused", Except.ok 7, none, none⟩).2.logged ∧
    (GetOrSet 10 "k" (fun n : Nat => Except.ok [n])
        (fun b : List Nat => match b with
          | [n] => Except.ok n
          | _ => Except.error "bad")
        ⟨RawGetRes.err "conn refused", Except.ok 7, none, none⟩).1 = Except.ok 7 := by
  have h := getOrSet_read_failure_resilient 10 "k" (fun n : Nat => Except.ok [n])
    (fun b : List Nat => match b with
      | [n] => Except.ok n
      | _ => Except.error "bad")
    ⟨RawGetRes.err "conn refused", Except.ok 7, none, none⟩ "conn refused" rfl
  exact ⟨h.1, h.2.2 7 [7] rfl rfl rfl⟩

/-- Claim C5 — write-failure resilience and TTL.  On the miss path with a
successful loader and serialization, a write is attempted with the computed
bytes and the engine's fixed expiration; if the backend write fails the
wrapped error is only logged and the freshly computed value is still
returned; if it succeeds the write is recorded as successful. -/
theorem getOrSet_write_failure_resilient {β T : Type} [Inhabited β]
    (expiration : Nat) (cacheKey : String) (marshal : T → Except Err β)
    (unmarshal : β → Except Err T) (env : Env β T) (t : T) (b : β)
    (hmiss : env.rawGet = RawGetRes.redisNil)
    (hc : env.callback = Except.ok t) (hm : marshal t = Except.ok b) :
    (GetOrSet expiration cacheKey marshal unmarshal env).2.setCall =
      some (cacheKey, b, expiration) ∧
    (GetOrSet expiration cacheKey marshal unmarshal env).1 = unmarshal b ∧
    (∀ e, env.rawSet = some e →
      ("failed to set to redis: " ++ e) ∈
        (GetOrSet expiration cacheKey marshal unmarshal env).2.logged ∧
      (GetOrSet expiration cacheKey marshal unmarshal env).2.setOk = false) ∧
    (env.rawSet = none →
      (GetOrSet expiration cacheKey marshal unmarshal env).2.setOk = true) := by
  refine ⟨?_, ?_, fun e hs => ?_, fun hs => ?_⟩
  · simp only [GetOrSet, sfgBody, RedisClient.Get, hmiss, hc, hm]
    cases env.hook with
    | none => simp
    | some f => simp
  · simp only [GetOrSet, sfgBody, RedisClient.Get, hmiss, hc, hm]
    cases env.hook with
    | none => simp [decodeSfgResult]
    | some f => simp [decodeSfgResult]
  · simp only [GetOrSet, sfgBody, RedisClient.Get, hmiss, hc, hm, hs, RedisClient.Set]
    cases env.hook with
    | none => simp
    | some f => simp
  · simp only [GetOrSet, sfgBody, RedisClient.Get, hmiss, hc, hm, hs, RedisClient.Set]
    cases env.hook with
    | none => simp [Option.isNone]
    | some f => simp [Option.isNone]

/-- Witness for C5: with a failing backend write, the value `7` is still
returned, the write attempt carried the fixed ttl `10`, the wrapped write
error was logged, and the write is recorded as failed. -/
theorem getOrSet_write_failure_resilient_witness :
    (GetOrSet 10 "k" (fun n : Nat => Except.ok [n])
        (fun b : List Nat => match b with
          | [n] => Except.ok n
          | _ => Except.error "bad")
        ⟨RawGetRes.redisNil, Except.ok 7, some "disk full", none⟩).2.setCall =
      some ("k", [7], 10) ∧
    (GetOrSet 10 "k" (fun n : Nat => Except.ok [n])
        (fun b : List Nat => match b with
          | [n] => Except.ok n
          | _ => Except.error "bad")
        ⟨RawGetRes.redisNil, Except.ok 7, some "disk full", none⟩).1 = Except.ok 7 ∧
    ("failed to set to redis: " ++ "disk full") ∈
      (GetOrSet 10 "k" (fun n : Nat => Except.ok [n])
        (fun b : List Nat => match b with
          | [n] => Except.ok n
          | _ => Except.error "bad")
        ⟨RawGetRes.redisNil, Except.ok 7, some "disk full", none⟩).2.logged := by
  have h := getOrSet_write_failure_resilient 10 "k" (fun n : Nat => Except.ok [n])
    (fun b : List Nat => match b with
      | [n] => Except.ok n
      | _ => Except.error "bad")
    ⟨RawGetRes.redisNil, Except.ok 7, some "disk full", none⟩ 7 [7] rfl rfl rfl
  exact ⟨h.1, h.2.1, (h.2.2.1 "disk full" rfl).1⟩

/-- Claim C6 as stated is false on the code: here the backend write fails
(`rawSet = some "disk full"`, so the recorded write is unsuccessful), yet
the hook is still invoked with the serialized bytes — the hook call is not
conditioned on a successful cache write. -/
theorem hook_runs_after_failed_write :
    (sfgBody 10 "k" (fun n : Nat => Except.ok [n])
        ⟨RawGetRes.redisNil, Except.ok 7, some "disk full",
          some (fun _ => none)⟩).hookCall = some [7] ∧
    (sfgBody 10 "k" (fun n : Nat => Except.ok [n])
        ⟨RawGetRes.redisNil, Except.ok 7, some "disk full",
          some (fun _ => none)⟩).setOk = false := by
  constructor <;> rfl

/-- Claim C6, amended — on the miss path with successful loader and
serialization, a supplied hook is invoked exactly once per leader pass with
the serialized bytes, after the cache write attempt but regardless of
whether that write succeeded; its outcome never affects the returned value
(a hook failure is only logged); with no hook supplied, none is called. -/
theorem getOrSet_hook_behaviour {β T : Type} [Inhabited β] (expiration : Nat)
    (cacheKey : String) (marshal : T → Except Err β)
    (unmarshal : β → Except Err T) (env : Env β T) (t : T) (b : β)
    (hmiss : env.rawGet = RawGetRes.redisNil)
    (hc : env.callback = Except.ok t) (hm : marshal t = Except.ok b) :
    (∀ f, env.hook = some f →
      (GetOrSet expiration cacheKey marshal unmarshal env).2.hookCall = some b ∧
      (GetOrSet expiration cacheKey marshal unmarshal env).1 = unmarshal b ∧
      (∀ e, f b = some e →
        e ∈ (GetOrSet expiration cacheKey marshal unmarshal env).2.logged)) ∧
    (env.hook = none →
      (GetOrSet expiration cacheKey marshal unmarshal env).2.hookCall = none) := by
  refine ⟨fun f hf => ⟨?_, ?_, fun e he => ?_⟩, fun hf => ?_⟩ <;>
    simp only [GetOrSet, sfgBody, RedisClient.Get, hmiss, hc, hm, hf]
  · simp
  · simp [decodeSfgResult]
  · simp [he]
  · simp

/-- Witness for the amended C6: with a failing write and a failing hook, the
hook still receives the bytes `[7]`, its error is logged, and the call still
returns `7`. -/
theorem getOrSet_hook_behaviour_witness :
    (GetOrSet 10 "k" (fun n : Nat => Except.ok [n])
        (fun b : List Nat => match b with
          | [n] => Except.ok n
          | _ => Except.error "bad")
        ⟨RawGetRes.redisNil, Except.ok 7, some "disk full",
          some (fun _ => some "hook boom")⟩).2.hookCall = some [7] ∧
    (GetOrSet 10 "k" (fun n : Nat => Except.ok [n])
        (fun b : List Nat => match b with
          | [n] => Except.ok n
          | _ => Except.error "bad")
        ⟨RawGetRes.redisNil, Except.ok 7, some "disk full",
          some (fun _ => some "hook boom")⟩).1 = Except.ok 7 ∧
    "hook boom" ∈ (GetOrSet 10 "k" (fun n : Nat => Except.ok [n])
        (fun b : List Nat => match b with
          | [n] => Except.ok n
          | _ => Except.error "bad")
        ⟨RawGetRes.redisNil, Except.ok 7, some "disk full",
          some (fun _ => some "hook boom")⟩).2.logged := by
  have h := (getOrSet_hook_behaviour 10 "k" (fun n : Nat => Except.ok [n])
    (fun b : List Nat => match b with
      | [n] => Except.ok n
      | _ => Except.error "bad")
    ⟨RawGetRes.redisNil, Except.ok 7, some "disk full",
      some (fun _ => some "hook boom")⟩ 7 [7] rfl rfl rfl).1
    (fun _ => some "hook boom") rfl
  exact ⟨h.1, h.2.1, h.2.2 "hook boom" rfl⟩

/-- Claim C9 — the type-assertion branch.  Whenever the coalesced inner
function returns without error, its payload is a byte string (so the
mismatch branch is unreachable on the engine's own results); and when the
branch is reached (a non-byte payload), the engine returns an error naming
the offending runtime type rather than panicking. -/
theorem getOrSet_type_assertion_safe {β T : Type} [Inhabited β]
    (expiration : Nat) (cacheKey : String) (marshal : T → Except Err β)
    (unmarshal : β → Except Err T) (env : Env β T) :
    (∀ a, (sfgBody expiration cacheKey marshal env).result = Except.ok a →
      ∃ b, a = GoAny.bytes b) ∧
    (∀ tn, decodeSfgResult unmarshal (Except.ok (GoAny.other tn)) =
      Except.error ("failed to get from cache: invalid type " ++ tn)) := by
  refine ⟨fun a ha => ?_, fun tn => rfl⟩
  simp only [sfgBody, RedisClient.Get] at ha
  cases hg : env.rawGet with
  | redisNil | err =>
    rw [hg] at ha
    cases hcb : env.callback with
    | error e => simp [hcb] at ha
    | ok t =>
      cases hmr : marshal t with
      | error e => simp [hcb, hmr] at ha
      | ok b =>
        cases hh : env.hook with
        | none =>
          simp [hcb, hmr, hh] at ha
          subst ha
          exact ⟨b, rfl⟩
        | some f =>
          simp [hcb, hmr, hh] at ha
          subst ha
          exact ⟨b, rfl⟩
  | ok b =>
    rw [hg] at ha
    simp at ha
    subst ha
    exact ⟨b, rfl⟩

/-- Witness for C9: on a concrete miss the inner result is the byte payload
`[7]`, and decoding a non-byte payload of runtime type `int` yields the
invalid-type error. -/
theorem getOrSet_type_assertion_safe_witness :
    (∃ b, (GoAny.bytes [7] : GoAny (List Nat)) = GoAny.bytes b) ∧
    decodeSfgResult (fun b : List Nat => match b with
        | [n] => Except.ok n
        | _ => Except.error "bad")
      (Except.ok (GoAny.other "int")) =
      Except.error ("failed to get from cache: invalid type " ++ "int") := by
  have h := getOrSet_type_assertion_safe 10 "k" (fun n : Nat => Except.ok [n])
    (fun b : List Nat => match b with
      | [n] => Except.ok n
      | _ => Except.error "bad")
    ⟨RawGetRes.redisNil, Except.ok 7, none, none⟩
  exact ⟨h.1 (GoAny.bytes [7]) rfl, h.2 "int"⟩

/-- Claim C7 fails on the code: `SelectByColumnWithLimit` keys carry only
the table name and the limit, so two calls filtering the same table on
different columns and values collide on the key `"users:limit:10"`, while
the other helpers do embed the filter (shown here for `GetByColumn`,
`SelectByColumn`, `Select` and `GetCountByColumn`). -/
theorem selectByColumnWithLimitKey_ignores_filter :
    selectByColumnWithLimitKey "users" "id" "1" 10 = "users:limit:10" ∧
    selectByColumnWithLimitKey "users" "name" "bob" 10 = "users:limit:10" ∧
    getByColumnKey "users" "id" "1" = "users:id:1" ∧
    selectByColumnKey "users" "id" "1" = "users:id:1" ∧
    selectKey "users" = "users:all" ∧
    getCountByColumnKey "users" "id" "1" = "users:count:id:1" := by
  decide

/-- A natural number below the surrogate range survives the character
round-trip. -/
theorem charToNat_ofNat {n : Nat} (h : n < 55296) : (Char.ofNat n).toNat = n := by
  have hv : n.isValidChar := Or.inl h
  rw [Char.ofNat, dif_pos hv]
  simp [Char.ofNatAux, Char.toNat, UInt32.toNat, BitVec.ofNatLt]

/-- The code of the digit character of a value below ten. -/
theorem digitChar_toNat {n : Nat} (h : n < 10) : (digitChar n).toNat = 48 + n :=
  charToNat_ofNat (by omega)

/-- Digit characters pass the digit test. -/
theorem isDigitChar_digitChar {n : Nat} (h : n < 10) :
    isDigitChar (digitChar n) = true := by
  simp [isDigitChar, digitChar_toNat h]
  omega

/-- One parsing step over a digit character. -/
theorem parseNatAux_digit {c : Char} (h : isDigitChar c = true)
    (acc : Nat) (cs : List Char) :
    parseNatAux acc (c :: cs) = parseNatAux (acc * 10 + (c.toNat - 48)) cs := by
  simp [parseNatAux, h]

/-- Consuming the rendered digits of `m` continues the parse with `m`
folded into the accumulator. -/
theorem parseNatAux_toDigits (m : Nat) : ∀ acc rest,
    parseNatAux acc (toDigitsCore m ++ rest) =
      parseNatAux (acc * 10 ^ (toDigitsCore m).length + m) rest := by
  induction m using Nat.strong_induction_on with
  | _ m ih =>
    intro acc rest
    by_cases h : m < 10
    · rw [toDigitsCore, if_pos h]
      rw [List.singleton_append]
      rw [parseNatAux_digit (isDigitChar_digitChar h)]
      rw [digitChar_toNat h]
      have key : acc * 10 + (48 + m - 48) =
          acc * 10 ^ (List.length [digitChar m]) + m := by
        simp only [List.length_singleton, pow_one]
        omega
      rw [key]
    · rw [toDigitsCore, if_neg h]
      rw [List.append_assoc]
      rw [ih (m / 10) (Nat.div_lt_self (by omega) (by omega))]
      have h10 : m % 10 < 10 := Nat.mod_lt _ (by omega)
      rw [List.singleton_append]
      rw [parseNatAux_digit (isDigitChar_digitChar h10)]
      rw [digitChar_toNat h10]
      have hlen : (toDigitsCore (m / 10) ++ [digitChar (m % 10)]).length =
          (toDigitsCore (m / 10)).length + 1 := by simp
      rw [hlen]
      have key : (acc * 10 ^ (toDigitsCore (m / 10)).length + m / 10) * 10 +
          (48 + m % 10 - 48) =
          acc * 10 ^ ((toDigitsCore (m / 10)).length + 1) + m := by
        have h48 : 48 + m % 10 - 48 = m % 10 := by omega
        have hdm : m / 10 * 10 + m % 10 = m := by omega
        rw [h48]
        generalize (toDigitsCore (m / 10)).length = L
        conv_rhs => rw [← hdm]
        rw [pow_succ]
        ring
      rw [key]

/-- A digit run stops at a non-digit (or at the end of input). -/
theorem parseNatAux_stop {rest : List Char} (h : headNotDigit rest) (acc : Nat) :
    parseNatAux acc rest = (acc, rest) := by
  cases rest with
  | nil => rfl
  | cons c cs =>
    simp only [headNotDigit] at h
    simp [parseNatAux, h]

/-- Parsing the rendered digits of `m` yields `m` and the untouched rest,
provided the rest does not begin with a digit. -/
theorem parseNat_toDigits {rest : List Char} (m : Nat) (h : headNotDigit rest) :
    parseNatAux 0 (toDigitsCore m ++ rest) = (m, rest) := by
  rw [parseNatAux_toDigits m]
  simp [parseNatAux_stop h]

/-- The rendered digits of a natural number begin with a digit character. -/
theorem toDigitsCore_head (m : Nat) :
    ∃ c t, toDigitsCore m = c :: t ∧ isDigitChar c = true := by
  induction m using Nat.strong_induction_on with
  | _ m ih =>
    by_cases h : m < 10
    · exact ⟨digitChar m, [], by rw [toDigitsCore, if_pos h],
        isDigitChar_digitChar h⟩
    · obtain ⟨c, t, hct, hd⟩ := ih (m / 10) (Nat.div_lt_self (by omega) (by omega))
      refine ⟨c, t ++ [digitChar (m % 10)], ?_, hd⟩
      rw [toDigitsCore, if_neg h, hct]
      simp

/-- Parsing the hexadecimal character of a value below sixteen recovers
the value. -/
theorem parseHexDigit_hexChar {d : Nat} (h : d < 16) :
    parseHexDigit (hexChar d) = some d := by
  by_cases h10 : d < 10
  · have ht : (hexChar d).toNat = 48 + d := by
      rw [hexChar, if_pos h10]
      exact charToNat_ofNat (by omega)
    rw [parseHexDigit, ht, if_pos (by omega)]
    exact congrArg some (by omega)
  · have ht : (hexChar d).toNat = 87 + d := by
      rw [hexChar, if_neg h10]
      exact charToNat_ofNat (by omega)
    rw [parseHexDigit, ht, if_neg (by omega), if_pos (by omega)]
    exact congrArg some (by omega)

/-- Claim C10 — fixed TTL.  Both `NewRedisRepository` constructors build
their engine with an expiration of exactly `time.Second*10` (ten seconds,
a positive duration), and every write the engine issues carries exactly the
engine's expiration, whatever the key, the loader outcome or the value. -/
theorem newRedisRepository_fixed_ttl {β T : Type} [Inhabited β]
    (marshal : T → Except Err β) (cacheKey : String) (env : Env β T) :
    (NewRedisRepository_cache β T).expiration = 10 * timeSecond ∧
    (redisUtil_NewRedisRepository_cache β T).expiration = 10 * timeSecond ∧
    0 < (NewRedisRepository_cache β T).expiration ∧
    (∀ k b ttl,
      (sfgBody (NewRedisRepository_cache β T).expiration cacheKey marshal
          env).setCall = some (k, b, ttl) →
      ttl = (NewRedisRepository_cache β T).expiration) := by
  refine ⟨by simp [NewRedisRepository_cache, NewCache, timeSecond, Nat.mul_comm],
    by simp [redisUtil_NewRedisRepository_cache, NewCache, timeSecond, Nat.mul_comm],
    by simp [NewRedisRepository_cache, NewCache, timeSecond],
    fun k b ttl hset => ?_⟩
  simp only [sfgBody, RedisClient.Get] at hset
  cases hg : env.rawGet with
  | redisNil | err =>
    rw [hg] at hset
    cases hcb : env.callback with
    | error e => simp [hcb] at hset
    | ok t =>
      cases hmr : marshal t with
      | error e => simp [hcb, hmr] at hset
      | ok bb =>
        cases hh : env.hook with
        | none =>
          simp [hcb, hmr, hh] at hset
          exact hset.2.2.symm
        | some f =>
          simp [hcb, hmr, hh] at hset
          exact hset.2.2.symm
  | ok b0 =>
    rw [hg] at hset
    simp at hset

/-- Witness for C10: a concrete miss under the constructed engine's
expiration issues a write whose ttl is the engine's ten-second expiration. -/
theorem newRedisRepository_fixed_ttl_witness :
    (NewRedisRepository_cache (List Nat) Nat).expiration = 10 * timeSecond ∧
    (redisUtil_NewRedisRepository_cache (List Nat) Nat).expiration = 10 * timeSecond ∧
    (10000000000 : Nat) = (NewRedisRepository_cache (List Nat) Nat).expiration := by
  have h := newRedisRepository_fixed_ttl (fun n : Nat => Except.ok [n]) "k"
    ⟨RawGetRes.redisNil, Except.ok 7, none, none⟩
  exact ⟨h.1, h.2.1, h.2.2.2 "k" [7] 10000000000 rfl⟩

/-- Parsing an escaped string body up to the closing quote recovers the
original characters and leaves the rest untouched. -/
theorem parseStringBody_escape : ∀ (s rest : List Char),
    parseStringBody (escapeList s ++ (quoteChar :: rest)) = some (s, rest) := by
  intro s
  induction s with
  | nil =>
    intro rest
    simp only [escapeList, List.nil_append]
    rw [parseStringBody.eq_def]
    simp
  | cons c cs ih =>
    intro rest
    rw [escapeList, List.append_assoc]
    by_cases h1 : c = quoteChar
    · subst h1
      rw [escapeChar, if_pos rfl]
      rw [show ([backslashChar, quoteChar] : List Char) ++
        (escapeList cs ++ quoteChar :: rest) =
        backslashChar :: quoteChar :: (escapeList cs ++ quoteChar :: rest) by simp]
      rw [parseStringBody.eq_def]
      simp +decide [consStr, ih]
    · by_cases h2 : c = backslashChar
      · subst h2
        rw [escapeChar, if_neg (by decide), if_pos rfl]
        rw [show ([backslashChar, backslashChar] : List Char) ++
          (escapeList cs ++ quoteChar :: rest) =
          backslashChar :: backslashChar :: (escapeList cs ++ quoteChar :: rest) by simp]
        rw [parseStringBody.eq_def]
        simp +decide [consStr, ih]
      · by_cases h3 : c = newlineChar
        · subst h3
          rw [escapeChar, if_neg (by decide), if_neg (by decide), if_pos rfl]
          rw [show ([backslashChar, 'n'] : List Char) ++
            (escapeList cs ++ quoteChar :: rest) =
            backslashChar :: 'n' :: (escapeList cs ++ quoteChar :: rest) by simp]
          rw [parseStringBody.eq_def]
          simp +decide [consStr, ih]
        · by_cases h4 : c = carriageChar
          · subst h4
            rw [escapeChar, if_neg (by decide), if_neg (by decide),
              if_neg (by decide), if_pos rfl]
            rw [show ([backslashChar, 'r'] : List Char) ++
              (escapeList cs ++ quoteChar :: rest) =
              backslashChar :: 'r' :: (escapeList cs ++ quoteChar :: rest) by simp]
            rw [parseStringBody.eq_def]
            simp +decide [consStr, ih]
          · by_cases h5 : c = tabChar
            · subst h5
              rw [escapeChar, if_neg (by decide), if_neg (by decide),
                if_neg (by decide), if_neg (by decide), if_pos rfl]
              rw [show ([backslashChar, 't'] : List Char) ++
                (escapeList cs ++ quoteChar :: rest) =
                backslashChar :: 't' :: (escapeList cs ++ quoteChar :: rest) by simp]
              rw [parseStringBody.eq_def]
              simp +decide [consStr, ih]
            · by_cases h6 : c.toNat < 32
              · rw [escapeChar, if_neg h1, if_neg h2, if_neg h3, if_neg h4,
                  if_neg h5, if_pos h6]
                have hx1 : parseHexDigit (hexChar (c.toNat / 16)) =
                    some (c.toNat / 16) :=
                  parseHexDigit_hexChar (by omega)
                have hx2 : parseHexDigit (hexChar (c.toNat % 16)) =
                    some (c.toNat % 16) :=
                  parseHexDigit_hexChar (by omega)
                have hdm : 16 * (c.toNat / 16) + c.toNat % 16 = c.toNat := by omega
                rw [show ([backslashChar, 'u', '0', '0',
                  hexChar (c.toNat / 16), hexChar (c.toNat % 16)] :
                  List Char) ++ (escapeList cs ++ quoteChar :: rest) =
                  backslashChar :: 'u' :: '0' :: '0' ::
                  hexChar (c.toNat / 16) :: hexChar (c.toNat % 16) ::
                  (escapeList cs ++ quoteChar :: rest) by simp]
                rw [parseStringBody.eq_def]
                simp +decide [consStr, ih, hx1, hx2, hdm]
              · rw [escapeChar, if_neg h1, if_neg h2, if_neg h3, if_neg h4,
                  if_neg h5, if_neg h6]
                rw [show ([c] : List Char) ++
                  (escapeList cs ++ quoteChar :: rest) =
                  c :: (escapeList cs ++ quoteChar :: rest) by simp]
                rw [parseStringBody.eq_def]
                simp [consStr, ih, h1, h2]

/-- A digit character is none of the punctuation or keyword heads the
parser dispatches on. -/
theorem isDigitChar_facts {c : Char} (h : isDigitChar c = true) :
    ¬ c = 'n' ∧ ¬ c = 't' ∧ ¬ c = 'f' ∧ ¬ c = quoteChar ∧ ¬ c = '-' ∧
      ¬ c = ']' ∧ ¬ c = rbraceChar ∧ ¬ c = '[' ∧ ¬ c = lbraceChar := by
  have hne : ∀ x : Char, isDigitChar x = false → ¬ c = x := fun x hx he => by
    rw [he, hx] at h
    exact absurd h Bool.false_ne_true
  exact ⟨hne _ (by decide), hne _ (by decide), hne _ (by decide),
    hne _ (by decide), hne _ (by decide), hne _ (by decide),
    hne _ (by decide), hne _ (by decide), hne _ (by decide)⟩

/-- Every rendered value begins with a byte that is neither the closing
bracket nor the closing brace, so array and object parsing can tell a
first element or field from an immediately closed collection. -/
theorem renderValue_head (v : Json) :
    ∃ c t, renderValue v = c :: t ∧ ¬ c = ']' ∧ ¬ c = rbraceChar := by
  cases v with
  | null =>
    exact ⟨'n', ['u', 'l', 'l'], by simp [renderValue, nullChars], by decide,
      by decide⟩
  | bool b =>
    cases b with
    | true =>
      exact ⟨'t', ['r', 'u', 'e'], by simp [renderValue, trueChars],
        by decide, by decide⟩
    | false =>
      exact ⟨'f', ['a', 'l', 's', 'e'], by simp [renderValue, falseChars],
        by decide, by decide⟩
  | num n =>
    by_cases hn : n < 0
    · exact ⟨'-', toDigitsCore n.natAbs,
        by simp [renderValue, renderInt, hn], by decide, by decide⟩
    · obtain ⟨c, t, hct, hd⟩ := toDigitsCore_head n.toNat
      obtain ⟨_, _, _, _, _, h6, h7, _, _⟩ := isDigitChar_facts hd
      exact ⟨c, t, by simp [renderValue, renderInt, hn, hct], h6, h7⟩
  | str s =>
    exact ⟨quoteChar, escapeList s.data ++ [quoteChar],
      by simp [renderValue], by decide, by decide⟩
  | arr es =>
    cases es with
    | nil => exact ⟨'[', [']'], by simp [renderValue], by decide, by decide⟩
    | cons e es2 =>
      exact ⟨'[', renderValue e ++ renderElems es2 ++ [']'],
        by simp [renderValue], by decide, by decide⟩
  | obj fs =>
    cases fs with
    | nil =>
      exact ⟨lbraceChar, [rbraceChar], by simp [renderValue], by decide,
        by decide⟩
    | cons f fs2 =>
      obtain ⟨k, v⟩ := f
      exact ⟨lbraceChar, renderField k v ++ renderFields fs2 ++ [rbraceChar],
        by simp [renderValue], by decide, by decide⟩

/-- After the elements of an array, the next byte is a comma or the
closing bracket — never a digit. -/
theorem headNotDigit_elems (es : List Json) (tail : List Char) :
    headNotDigit (renderElems es ++ (']' :: tail)) := by
  cases es with
  | nil =>
    simp only [renderElems, List.nil_append, headNotDigit]
    decide
  | cons e es2 =>
    simp only [renderElems, List.cons_append, headNotDigit]
    decide

/-- After the fields of an object, the next byte is a comma or the closing
brace — never a digit. -/
theorem headNotDigit_fields (fs : List (String × Json)) (tail : List Char) :
    headNotDigit (renderFields fs ++ (rbraceChar :: tail)) := by
  cases fs with
  | nil =>
    simp only [renderFields, List.nil_append, headNotDigit]
    decide
  | cons f fs2 =>
    obtain ⟨k, v⟩ := f
    simp only [renderFields, List.cons_append, headNotDigit]
    decide

/-- Every document has positive structural size. -/
theorem jsize_pos (v : Json) : 1 ≤ jsize v := by
  cases v <;> simp [jsize]

/-- Every element list has positive structural size. -/
theorem jsizeElems_pos (es : List Json) : 1 ≤ jsizeElems es := by
  cases es with
  | nil => simp [jsizeElems]
  | cons e es2 =>
    simp only [jsizeElems]
    omega

/-- Every field list has positive structural size. -/
theorem jsizeFields_pos (fs : List (String × Json)) : 1 ≤ jsizeFields fs := by
  cases fs with
  | nil => simp [jsizeFields]
  | cons f fs2 =>
    obtain ⟨k, v⟩ := f
    simp only [jsizeFields]
    omega

/-- Completeness of the parser against the renderer, by induction on the
parser's fuel: with fuel at least the structural size of the document,
parsing the rendering of a value — or of the elements of a non-empty array,
or the fields of a non-empty object — recovers exactly that value and
leaves the following bytes untouched, provided the following byte is not a
digit (which rendered JSON guarantees). -/
theorem parse_render (fuel : Nat) :
    (∀ v rest, jsize v ≤ fuel → headNotDigit rest →
      parseValue fuel (renderValue v ++ rest) = some (v, rest)) ∧
    (∀ e es rest, 1 + jsize e + jsizeElems es ≤ fuel →
      parseElems fuel (renderValue e ++ (renderElems es ++ (']' :: rest))) =
        some (e :: es, rest)) ∧
    (∀ k v fs rest, 1 + jsize v + jsizeFields fs ≤ fuel →
      parseFields fuel
          (renderField k v ++ (renderFields fs ++ (rbraceChar :: rest))) =
        some ((k, v) :: fs, rest)) := by
  induction fuel with
  | zero =>
    refine ⟨fun v rest h1 _ => absurd h1 ?_, fun e es rest h1 => absurd h1 ?_,
      fun k v fs rest h1 => absurd h1 ?_⟩
    · have := jsize_pos v
      omega
    · have := jsize_pos e
      have := jsizeElems_pos es
      omega
    · have := jsize_pos v
      have := jsizeFields_pos fs
      omega
  | succ fuel ih =>
    obtain ⟨ihP, ihQ, ihR⟩ := ih
    refine ⟨?_, ?_, ?_⟩
    · intro v rest hsz hrest
      cases v with
      | null =>
        rw [show renderValue .null = ['n', 'u', 'l', 'l'] from by
          simp [renderValue, nullChars]]
        simp +decide [parseValue]
      | bool b =>
        cases b with
        | true =>
          rw [show renderValue (.bool true) = ['t', 'r', 'u', 'e'] from by
            simp [renderValue, trueChars]]
          simp +decide [parseValue]
        | false =>
          rw [show renderValue (.bool false) = ['f', 'a', 'l', 's', 'e'] from by
            simp [renderValue, falseChars]]
          simp +decide [parseValue]
      | num n =>
        by_cases hn : n < 0
        · rw [show renderValue (.num n) = renderInt n from by simp [renderValue]]
          rw [renderInt, if_pos hn]
          obtain ⟨d, t, hdt, hdig⟩ := toDigitsCore_head n.natAbs
          have hpn : parseNatAux 0 (toDigitsCore n.natAbs ++ rest) =
              (n.natAbs, rest) := parseNat_toDigits _ hrest
          rw [hdt] at hpn
          rw [hdt]
          simp only [List.cons_append] at hpn ⊢
          simp +decide [parseValue, hdig, hpn]
          rw [abs_of_neg hn, neg_neg]
        · rw [show renderValue (.num n) = renderInt n from by simp [renderValue]]
          rw [renderInt, if_neg hn]
          obtain ⟨d, t, hdt, hdig⟩ := toDigitsCore_head n.toNat
          have hpn : parseNatAux 0 (toDigitsCore n.toNat ++ rest) =
              (n.toNat, rest) := parseNat_toDigits _ hrest
          obtain ⟨hd1, hd2, hd3, hd4, hd5, _, _, _, _⟩ := isDigitChar_facts hdig
          rw [hdt] at hpn
          rw [hdt]
          simp only [List.cons_append] at hpn ⊢
          simp +decide [parseValue, hd1, hd2, hd3, hd4, hd5, hdig, hpn]
          omega
      | str s =>
        rw [show renderValue (.str s) =
          quoteChar :: (escapeList s.data ++ [quoteChar]) from by
            simp [renderValue]]
        simp only [List.cons_append, List.append_assoc, List.singleton_append]
        simp +decide [parseValue, parseStringBody_escape]
      | arr es =>
        cases es with
        | nil =>
          rw [show renderValue (.arr []) = ['[', ']'] from by simp [renderValue]]
          simp +decide [parseValue]
        | cons e es2 =>
          rw [show renderValue (.arr (e :: es2)) =
            '[' :: (renderValue e ++ renderElems es2 ++ [']']) from by
              simp [renderValue]]
          have hsz2 : 1 + jsize e + jsizeElems es2 ≤ fuel := by
            simp only [jsize, jsizeElems] at hsz
            omega
          have hQ := ihQ e es2 rest hsz2
          obtain ⟨c0, t0, hct, hne1, hne2⟩ := renderValue_head e
          rw [hct] at hQ ⊢
          simp only [List.cons_append, List.append_assoc,
            List.singleton_append] at hQ ⊢
          simp +decide [parseValue, hne1, hQ]
      | obj fs =>
        cases fs with
        | nil =>
          rw [show renderValue (.obj []) = [lbraceChar, rbraceChar] from by
            simp [renderValue]]
          simp +decide [parseValue]
        | cons f fs2 =>
          obtain ⟨k, v⟩ := f
          rw [show renderValue (.obj ((k, v) :: fs2)) =
            lbraceChar :: (renderField k v ++ renderFields fs2 ++ [rbraceChar])
            from by simp [renderValue]]
          have hsz2 : 1 + jsize v + jsizeFields fs2 ≤ fuel := by
            simp only [jsize, jsizeFields] at hsz
            omega
          have hR := ihR k v fs2 rest hsz2
          rw [show renderField k v =
            quoteChar :: (escapeList k.data ++ (quoteChar :: (':' ::
              renderValue v))) from by simp [renderField]] at hR ⊢
          simp only [List.cons_append, List.append_assoc,
            List.singleton_append] at hR ⊢
          simp +decide [parseValue, hR]
    · intro e es rest hsz
      have hsze : jsize e ≤ fuel := by
        have := jsizeElems_pos es
        omega
      have hP := ihP e (renderElems es ++ (']' :: rest)) hsze
        (headNotDigit_elems es rest)
      rw [show parseElems (fuel + 1)
          (renderValue e ++ (renderElems es ++ (']' :: rest))) =
        match parseValue fuel
            (renderValue e ++ (renderElems es ++ (']' :: rest))) with
        | some (v, r) =>
          match r with
          | [] => none
          | d :: r2 =>
            if d = ',' then
              match parseElems fuel r2 with
              | some (vs, r3) => some (v :: vs, r3)
              | none => none
            else if d = ']' then some ([v], r2)
            else none
        | none => none from by simp [parseElems]]
      rw [hP]
      cases es with
      | nil =>
        simp only [renderElems, List.nil_append]
        simp +decide
      | cons e2 es2 =>
        have hsz3 : 1 + jsize e2 + jsizeElems es2 ≤ fuel := by
          have := jsize_pos e
          simp only [jsizeElems] at hsz
          omega
        have hQ2 := ihQ e2 es2 rest hsz3
        simp only [renderElems, List.cons_append, List.append_assoc] at hQ2 ⊢
        simp +decide [hQ2]
    · intro k v fs rest hsz
      have hszv : jsize v ≤ fuel := by
        have := jsizeFields_pos fs
        omega
      have hP := ihP v (renderFields fs ++ (rbraceChar :: rest)) hszv
        (headNotDigit_fields fs rest)
      rw [show renderField k v =
        quoteChar :: (escapeList k.data ++ (quoteChar :: (':' ::
          renderValue v))) from by simp [renderField]]
      simp only [List.cons_append, List.append_assoc]
      rw [show parseFields (fuel + 1) (quoteChar :: (escapeList k.data ++
          (quoteChar :: (':' :: (renderValue v ++ (renderFields fs ++
            (rbraceChar :: rest))))))) =
        match parseStringBody (escapeList k.data ++ (quoteChar :: (':' ::
            (renderValue v ++ (renderFields fs ++ (rbraceChar :: rest)))))) with
        | some (k2, r) =>
          match r with
          | [] => none
          | d :: r2 =>
            if d = ':' then
              match parseValue fuel r2 with
              | some (v2, r3) =>
                match r3 with
                | [] => none
                | d2 :: r4 =>
                  if d2 = ',' then
                    match parseFields fuel r4 with
                    | some (fs2, r5) => some ((String.mk k2, v2) :: fs2, r5)
                    | none => none
                  else if d2 = rbraceChar then some ([(String.mk k2, v2)], r4)
                  else none
              | none => none
            else none
        | none => none from by simp +decide [parseFields]]
      rw [parseStringBody_escape]
      simp only [if_true]
      rw [hP]
      cases fs with
      | nil =>
        simp only [renderFields, List.nil_append]
        simp +decide
      | cons f2 fs2 =>
        obtain ⟨k2, v2⟩ := f2
        have hsz3 : 1 + jsize v2 + jsizeFields fs2 ≤ fuel := by
          have := jsize_pos v
          simp only [jsizeFields] at hsz
          omega
        have hR2 := ihR k2 v2 fs2 rest hsz3
        simp only [renderFields, List.cons_append, List.append_assoc] at hR2 ⊢
        simp +decide [hR2]

/-- The structural size of a document is at most twice the length of its
rendering: every node contributes at least one byte, and arrays and
objects contribute their two delimiters. -/
theorem jsize_le_render_aux (n : Nat) :
    (∀ v, jsize v ≤ n → jsize v ≤ 2 * (renderValue v).length) ∧
    (∀ es, jsizeElems es ≤ n →
      jsizeElems es ≤ 2 * (renderElems es).length + 2) ∧
    (∀ fs, jsizeFields fs ≤ n →
      jsizeFields fs ≤ 2 * (renderFields fs).length + 2) := by
  induction n with
  | zero =>
    refine ⟨fun v h => absurd h ?_, fun es h => absurd h ?_,
      fun fs h => absurd h ?_⟩
    · have := jsize_pos v
      omega
    · have := jsizeElems_pos es
      omega
    · have := jsizeFields_pos fs
      omega
  | succ n ih =>
    obtain ⟨ihV, ihE, ihF⟩ := ih
    refine ⟨?_, ?_, ?_⟩
    · intro v hv
      cases v with
      | null => simp [jsize, renderValue, nullChars]
      | bool b => cases b <;> simp [jsize, renderValue, trueChars, falseChars]
      | num m =>
        have h1 : 1 ≤ (renderInt m).length := by
          rw [renderInt]
          by_cases hm : m < 0
          · rw [if_pos hm]
            simp
          · rw [if_neg hm]
            obtain ⟨c, t, hct, _⟩ := toDigitsCore_head m.toNat
            rw [hct]
            simp
        simp only [jsize, renderValue]
        omega
      | str s =>
        simp only [jsize, renderValue, List.length_cons]
        omega
      | arr es =>
        cases es with
        | nil =>
          simp only [jsize, jsizeElems, renderValue, List.length_cons,
            List.length_nil]
          omega
        | cons e es2 =>
          have hve : jsize e ≤ n := by
            simp only [jsize, jsizeElems] at hv
            have := jsizeElems_pos es2
            omega
          have hee : jsizeElems es2 ≤ n := by
            simp only [jsize, jsizeElems] at hv
            have := jsize_pos e
            omega
          have h1 := ihV e hve
          have h2 := ihE es2 hee
          simp only [jsize, jsizeElems, renderValue, List.length_cons,
            List.length_append, List.length_singleton]
          omega
      | obj fs =>
        cases fs with
        | nil =>
          simp only [jsize, jsizeFields, renderValue, List.length_cons,
            List.length_nil]
          omega
        | cons f fs2 =>
          obtain ⟨k, v2⟩ := f
          have hv2 : jsize v2 ≤ n := by
            simp only [jsize, jsizeFields] at hv
            have := jsizeFields_pos fs2
            omega
          have hf2 : jsizeFields fs2 ≤ n := by
            simp only [jsize, jsizeFields] at hv
            have := jsize_pos v2
            omega
          have h1 := ihV v2 hv2
          have h2 := ihF fs2 hf2
          simp only [jsize, jsizeFields, renderValue, renderField,
            List.length_cons, List.length_append, List.length_singleton]
          omega
    · intro es he
      cases es with
      | nil =>
        simp only [jsizeElems, renderElems, List.length_nil]
        omega
      | cons e es2 =>
        have h1 := ihV e (by
          simp only [jsizeElems] at he
          have := jsizeElems_pos es2
          omega)
        have h2 := ihE es2 (by
          simp only [jsizeElems] at he
          have := jsize_pos e
          omega)
        simp only [jsizeElems, renderElems, List.length_cons,
          List.length_append]
        omega
    · intro fs hf
      cases fs with
      | nil =>
        simp only [jsizeFields, renderFields, List.length_nil]
        omega
      | cons f fs2 =>
        obtain ⟨k, v2⟩ := f
        have h1 := ihV v2 (by
          simp only [jsizeFields] at hf
          have := jsizeFields_pos fs2
          omega)
        have h2 := ihF fs2 (by
          simp only [jsizeFields] at hf
          have := jsize_pos v2
          omega)
        simp only [jsizeFields, renderFields, renderField, List.length_cons,
          List.length_append]
        omega

/-- The structural size of any document is bounded by twice its rendered
length. -/
theorem jsize_le_render (v : Json) : jsize v ≤ 2 * (renderValue v).length :=
  (jsize_le_render_aux (jsize v)).1 v (Nat.le_refl _)

/-- Claim C8 — round-trip.  For every value type `T` whose reflection
mapping into JSON documents inverts (as Go derives per type: decoding the
encoded document recovers the value), and for every value `v : T`,
serializing — encode to a document, render to bytes — followed by
deserializing — parse the bytes, decode the document — returns exactly
`v`: the byte-level render and parse are the proven inverse pair. -/
theorem serialize_deserialize_roundTrip {T : Type} (enc : T → Json)
    (dec : Json → Except Err T) (hcodec : ∀ t, dec (enc t) = Except.ok t)
    (v : T) : deserialize dec (serialize enc v) = Except.ok v := by
  have hsz : jsize (enc v) ≤ 2 * (renderValue (enc v)).length + 2 := by
    have := jsize_le_render (enc v)
    omega
  have hp := (parse_render (2 * (renderValue (enc v)).length + 2)).1 (enc v)
    [] hsz trivial
  rw [List.append_nil] at hp
  rw [deserialize, serialize, hp]
  exact hcodec v

/-- Witness for C8: the repository's own row type `Count`, at the value 5,
round-trips through the byte-level serialization; the per-type document
codec hypothesis is discharged by computation on `Count`. -/
theorem serialize_deserialize_roundTrip_witness :
    deserialize Count.unmarshalJson (serialize Count.marshalJson ⟨5⟩) =
      Except.ok ⟨5⟩ :=
  serialize_deserialize_roundTrip Count.marshalJson Count.unmarshalJson
    (fun t => rfl) ⟨5⟩

/-- A successful flight lookup returns an actual element of the in-flight
list, with the looked-up key. -/
theorem lookupFlight_mem {k : String} {l : List (String × Nat × List Nat)}
    {fw : Nat × List Nat} (h : lookupFlight k l = some fw) : (k, fw) ∈ l := by
  unfold lookupFlight at h
  cases hf : l.find? (fun p => p.1 = k) with
  | none => rw [hf] at h; cases h
  | some p =>
    rw [hf] at h
    cases h
    have hm := List.mem_of_find?_eq_some hf
    have hk := List.find?_some hf
    have hk2 : p.1 = k := by simpa using hk
    rw [← hk2]
    exact hm

/-- Attaching a waiter never changes the flight ids. -/
theorem flightIds_attachWaiter (c : Nat) (k : String)
    (l : List (String × Nat × List Nat)) :
    flightIds (attachWaiter c k l) = flightIds l := by
  induction l with
  | nil => rfl
  | cons p t ih =>
    by_cases hp : p.1 = k <;> simp [attachWaiter, flightIds, hp] <;>
      simpa [attachWaiter, flightIds] using ih

/-- Every element of an attach is an element of the original list with the
same key and the same flight id. -/
theorem attachWaiter_mem {c : Nat} {k : String}
    {l : List (String × Nat × List Nat)} {p : String × Nat × List Nat}
    (h : p ∈ attachWaiter c k l) :
    ∃ q ∈ l, p.1 = q.1 ∧ p.2.1 = q.2.1 := by
  obtain ⟨q, hq, hqe⟩ := List.mem_map.mp h
  refine ⟨q, hq, ?_⟩
  by_cases hk : q.1 = k
  · simp [hk] at hqe
    rw [← hqe]
    exact ⟨hk.symm, rfl⟩
  · simp [hk] at hqe
    rw [← hqe]
    exact ⟨rfl, rfl⟩

/-- A flight id appearing in the id list comes from some in-flight entry. -/
theorem mem_flightIds {n : Nat} {l : List (String × Nat × List Nat)}
    (h : n ∈ flightIds l) : ∃ p ∈ l, p.2.1 = n := by
  obtain ⟨p, hp, hpe⟩ := List.mem_map.mp h
  exact ⟨p, hp, hpe⟩

/-- Every step of the coalescing model preserves the state invariant. -/
theorem sfStep_inv {β T : Type} [Inhabited β] (expiration : Nat)
    (marshal : T → Except Err β) (s : SFState β) (ev : SFEvent β T)
    (hs : SFInv s) : SFInv (sfStep expiration marshal s ev) := by
  cases ev with
  | arrive c k =>
    cases hl : lookupFlight k s.inflight with
    | some fw =>
      simp only [sfStep, hl]
      refine ⟨?_, ?_, hs.exec_lt, hs.exec_nodup, hs.delivered_lt, ?_,
        hs.delivered_consistent⟩
      · intro p hp
        obtain ⟨q, hq, _, hid⟩ := attachWaiter_mem hp
        rw [hid]
        exact hs.inflight_lt q hq
      · rw [flightIds_attachWaiter]
        exact hs.inflight_nodup
      · intro p hp d hd
        obtain ⟨q, hq, _, hid⟩ := attachWaiter_mem hp
        rw [hid]
        exact hs.delivered_fresh q hq d hd
    | none =>
      simp only [sfStep, hl]
      refine ⟨?_, ?_, ?_, ?_, ?_, ?_, hs.delivered_consistent⟩
      · intro p hp
        rcases List.mem_cons.mp hp with h | h
        · rw [h]
          exact Nat.lt_succ_self _
        · exact Nat.lt_trans (hs.inflight_lt p h) (Nat.lt_succ_self _)
      · have hcons : flightIds ((k, s.counter, [c]) :: s.inflight) =
            s.counter :: flightIds s.inflight := rfl
        rw [hcons, List.nodup_cons]
        refine ⟨fun hmem => ?_, hs.inflight_nodup⟩
        obtain ⟨p, hp, hpe⟩ := mem_flightIds hmem
        exact absurd hpe (Nat.ne_of_lt (hs.inflight_lt p hp))
      · intro p hp
        rcases List.mem_cons.mp hp with h | h
        · rw [h]
          exact Nat.lt_succ_self _
        · exact Nat.lt_trans (hs.exec_lt p h) (Nat.lt_succ_self _)
      · have hcons : ((k, s.counter) :: s.execLog).map Prod.snd =
            s.counter :: s.execLog.map Prod.snd := rfl
        rw [hcons, List.nodup_cons]
        refine ⟨fun hmem => ?_, hs.exec_nodup⟩
        obtain ⟨p, hp, hpe⟩ := List.mem_map.mp hmem
        exact absurd hpe (Nat.ne_of_lt (hs.exec_lt p hp))
      · intro d hd
        exact Nat.lt_trans (hs.delivered_lt d hd) (Nat.lt_succ_self _)
      · intro p hp d hd
        rcases List.mem_cons.mp hp with h | h
        · rw [h]
          exact Nat.ne_of_lt (hs.delivered_lt d hd)
        · exact hs.delivered_fresh p h d hd
  | complete k env =>
    cases hl : lookupFlight k s.inflight with
    | none =>
      simp only [sfStep, hl]
      exact hs
    | some fw =>
      obtain ⟨fid, ws⟩ := fw
      have hmem : (k, fid, ws) ∈ s.inflight := lookupFlight_mem hl
      have hfid : fid < s.counter := hs.inflight_lt _ hmem
      simp only [sfStep, hl]
      have hnewmem : ∀ d : Delivery β,
          d ∈ ws.map (fun c =>
            ({ caller := c, flight := fid,
               outcome := (sfgBody expiration k marshal env).result } :
              Delivery β)) →
          d.flight = fid ∧
            d.outcome = (sfgBody expiration k marshal env).result := by
        intro d hd
        obtain ⟨c, _, hce⟩ := List.mem_map.mp hd
        rw [← hce]
        exact ⟨rfl, rfl⟩
      refine ⟨?_, ?_, hs.exec_lt, hs.exec_nodup, ?_, ?_, ?_⟩
      · intro p hp
        exact hs.inflight_lt p (List.mem_of_mem_filter hp)
      · exact hs.inflight_nodup.sublist
          (List.Sublist.map _ (List.filter_sublist _))
      · intro d hd
        rcases List.mem_append.mp hd with h | h
        · rw [(hnewmem d h).1]
          exact hfid
        · exact hs.delivered_lt d h
      · intro p hp d hd
        have hpl : p ∈ s.inflight := List.mem_of_mem_filter hp
        have hpk : p.1 ≠ k := by
          have := List.of_mem_filter hp
          simpa using this
        rcases List.mem_append.mp hd with h | h
        · rw [(hnewmem d h).1]
          intro hcontra
          have hinj := List.inj_on_of_nodup_map
            (f := fun q : String × Nat × List Nat => q.2.1)
            hs.inflight_nodup hpl hmem hcontra.symm
          exact hpk (by rw [hinj])
        · exact hs.delivered_fresh p hpl d h
      · intro d1 hd1 d2 hd2 hflight
        rcases List.mem_append.mp hd1 with h1 | h1 <;>
          rcases List.mem_append.mp hd2 with h2 | h2
        · rw [(hnewmem d1 h1).2, (hnewmem d2 h2).2]
        · exact absurd ((hnewmem d1 h1).1 ▸ hflight).symm
            (hs.delivered_fresh _ hmem d2 h2)
        · exact absurd ((hnewmem d2 h2).1 ▸ hflight)
            (hs.delivered_fresh _ hmem d1 h1)
        · exact hs.delivered_consistent d1 h1 d2 h2 hflight

/-- The empty coalescer state satisfies the invariant. -/
theorem sfInit_inv (β : Type) : SFInv (SFState.init β) := by
  constructor <;> simp [SFState.init, flightIds]

/-- Every reachable coalescer state satisfies the invariant. -/
theorem sfRun_inv {β T : Type} [Inhabited β] (expiration : Nat)
    (marshal : T → Except Err β) (es : List (SFEvent β T)) :
    SFInv (sfRun expiration marshal es) := by
  suffices h : ∀ s : SFState β, SFInv s →
      SFInv (es.foldl (sfStep expiration marshal) s) from
    h _ (sfInit_inv β)
  induction es with
  | nil => exact fun s hs => hs
  | cons e t ih =>
    intro s hs
    exact ih _ (sfStep_inv expiration marshal s e hs)

/-- Claim C1 — coalescing.  Over every trace of the coalescing model, each
in-flight computation runs the underlying cache-read/loader/serialize/store
sequence exactly once (the execution log never repeats a flight id), all
callers attached to the same in-flight computation receive the very same
outcome — the same bytes or the same error as computed by the leader pass —
and a caller arriving while a computation for its key is in flight adds no
execution of the underlying sequence. -/
theorem getOrSet_coalescing {β T : Type} [Inhabited β] (expiration : Nat)
    (marshal : T → Except Err β) (es : List (SFEvent β T)) :
    ((sfRun expiration marshal es).execLog.map Prod.snd).Nodup ∧
    (∀ d1 ∈ (sfRun expiration marshal es).delivered,
      ∀ d2 ∈ (sfRun expiration marshal es).delivered,
        d1.flight = d2.flight → d1.outcome = d2.outcome) ∧
    (∀ s : SFState β, ∀ c k, (lookupFlight k s.inflight).isSome = true →
      (sfStep expiration marshal s (SFEvent.arrive c k)).execLog = s.execLog) := by
  have hinv := sfRun_inv expiration marshal es
  refine ⟨hinv.exec_nodup, hinv.delivered_consistent, fun s c k hk => ?_⟩
  cases hl : lookupFlight k s.inflight with
  | none => rw [hl] at hk; cases hk
  | some fw => simp [sfStep, hl]

/-- Witness for C1: on the trace where callers `0` and `1` present the same
key and the single flight completes with loader value `7`, the execution
log has no repeated flight, both deliveries exist, and the two callers'
outcomes coincide. -/
theorem getOrSet_coalescing_witness :
    ((sfRun 10 (fun n : Nat => Except.ok [n])
        [SFEvent.arrive 0 "k", SFEvent.arrive 1 "k",
         SFEvent.complete "k"
           ⟨RawGetRes.redisNil, Except.ok 7, none, none⟩]).execLog.map
      Prod.snd).Nodup ∧
    (Delivery.mk 0 0 (Except.ok (GoAny.bytes [7]))).outcome =
      (Delivery.mk 1 0 (Except.ok (GoAny.bytes [7]))).outcome := by
  have h := getOrSet_coalescing 10 (fun n : Nat => Except.ok [n])
    [SFEvent.arrive 0 "k", SFEvent.arrive 1 "k",
     SFEvent.complete "k" ⟨RawGetRes.redisNil, Except.ok 7, none, none⟩]
  exact ⟨h.1,
    h.2.1 ⟨0, 0, Except.ok (GoAny.bytes [7])⟩ (by decide)
      ⟨1, 0, Except.ok (GoAny.bytes [7])⟩ (by decide) rfl⟩

end CacheAside
